import Mathlib

/-!
# Verification of the dataset-minimization (stratified subsampling) logic

Shallow embedding of `src/utils.py` of the pytorch-pretrained-cnns
repository: the `minimize_dataset` callable (stratified subsampler), the
`check_in_range` fraction validator, and a model of the library call
`sklearn.model_selection.train_test_split(np.arange(len(dataset)),
train_size=dataset_size/100, stratify=targets, random_state=random_value)`
that `minimize_dataset.__call__` performs, together with the
`torch.utils.data.Subset` view it returns.

Modelling notes for the two external library calls:

* `train_test_split` with `stratify=...` validates sizes
  (`_validate_shuffle_split`) and then delegates to
  `StratifiedShuffleSplit._iter_indices`.  Both are embedded below
  following the library's algorithm: size validation, the per-class
  floor/remainder count allocation (`_approximate_mode`), per-class
  permutation and take, and the final permutation of the train indices.
  Python computes `train_size = dataset_size / 100` in binary floating
  point; the embedding uses exact integer arithmetic
  (`floor (dataset_size * n / 100)`), which agrees with the float
  computation on the validation comparisons for integer `dataset_size`.
* numpy's `RandomState` (MT19937) is modelled by an abstract
  deterministic generator (`Rng` below): a pure state machine seeded with
  `random_state` whose `permutation` is a seed-dependent rotation.  The
  exact permutation values produced by MT19937 are abstracted; every
  theorem below is independent of which permutation the generator picks
  (determinism, counts, ranges, distinctness, stratification bounds).
  Likewise the random tie-breaking among equal remainders inside
  `_approximate_mode` is abstracted: extra units go to classes with a
  positive remainder in class order.
-/

/-- The Python exceptions that can surface from the code under study:
`NotImplementedError` raised by `minimize_dataset.__call__` (line 126 of
`src/utils.py`), `ValueError` raised inside sklearn's
`train_test_split`, and `argparse.ArgumentTypeError` raised by
`check_in_range` (line 82 of `src/utils.py`).  The specification calls
the configuration-validation failures (missing label attribute,
out-of-range fraction) `ConfigurationError`; in the code these are the
`NotImplementedError` and `ArgumentTypeError` cases. -/
inductive PyError : Type where
  | notImplementedError (msg : String) : PyError
  | valueError (msg : String) : PyError
  | argumentTypeError (msg : String) : PyError
deriving DecidableEq, Repr

/-- A labelled dataset as `minimize_dataset.__call__` sees it: an ordered
sequence of items (`dataset[i]`), plus the optional `targets` and
`labels` attributes probed by `hasattr` (lines 121-124 of
`src/utils.py`).  `Option.isSome` models `hasattr`. -/
structure Dataset (α L : Type) : Type where
  items : List α
  targets : Option (List L)
  labels : Option (List L)
deriving DecidableEq, Repr

/-- `torch.utils.data.Subset(dataset, indices)`: an indexed view over
`dataset` restricted to `indices`; `len` is the number of indices and
`subset[i] = dataset[indices[i]]`. -/
structure TorchSubset (α L : Type) : Type where
  dataset : Dataset α L
  indices : List ℕ
deriving DecidableEq, Repr

/-- `len(subset)` for a `torch.utils.data.Subset`. -/
def TorchSubset.len {α L : Type} (s : TorchSubset α L) : ℕ :=
  s.indices.length

/-- `subset[i]` for a `torch.utils.data.Subset`: `dataset[indices[i]]`,
`none` when the lookup is out of range. -/
def TorchSubset.getitem {α L : Type} (s : TorchSubset α L) (i : ℕ) : Option α :=
  s.indices[i]? >>= fun j => s.dataset.items[j]?

/-- Abstract deterministic model of `numpy.random.RandomState`: a pure
state machine.  The concrete step function (a linear congruential update)
stands in for MT19937; no theorem depends on the values it produces. -/
structure Rng : Type where
  state : ℕ
deriving DecidableEq, Repr

/-- Advance the generator and produce a value. -/
def Rng.next (r : Rng) : ℕ × Rng :=
  let s := (r.state * 1103515245 + 12345) % 4294967296
  (s, ⟨s⟩)

/-- Model of `rng.permutation(l)`: a seed-dependent rotation of `l`
(a genuine permutation of `l`, which is all the theorems below use). -/
def Rng.permuteList {α : Type} (r : Rng) (l : List α) : List α × Rng :=
  let (k, r') := r.next
  (l.rotate k, r')

/-- `np.unique(targets)`: the distinct labels in ascending order. -/
def sortedClasses {L : Type} [LinearOrder L] (targets : List L) : List L :=
  List.insertionSort (· ≤ ·) targets.dedup

/-- The ascending list of positions of `targets` that carry label `c`:
sklearn's `class_indices[i]` (a stable argsort of the label codes split
by class yields, for each class, its positions in ascending order). -/
def indicesWithLabel {L : Type} [DecidableEq L] (targets : List L) (c : L) : List ℕ :=
  (targets.enum.filter (fun p => p.2 = c)).map Prod.fst

/-- Remainder-distribution loop of sklearn's `_approximate_mode`: each
class starts from its floored share `q`; while extra units remain, a
class with a nonzero remainder `r` receives one more.  (sklearn orders
recipients by decreasing remainder with random tie-breaking; which
positive-remainder class receives the extra is part of the RNG
abstraction, and no theorem depends on it.) -/
def addExtras : List (ℕ × ℕ) → ℕ → List ℕ
  | [], _ => []
  | (q, r) :: rest, need =>
    if r ≠ 0 ∧ 0 < need then (q + 1) :: addExtras rest (need - 1)
    else q :: addExtras rest need

/-- sklearn's `_approximate_mode(class_counts, n_draws, rng)`: per-class
draw counts that sum to `n_draws`, each class getting the floor of its
proportional share, with the leftover units distributed among classes
with a positive fractional remainder. -/
def approximateMode (classCounts : List ℕ) (nDraws : ℕ) : List ℕ :=
  let total := classCounts.sum
  let pairs := classCounts.map (fun c => (c * nDraws / total, c * nDraws % total))
  addExtras pairs (nDraws - (pairs.map Prod.fst).sum)

/-- Per-class selection loop of `StratifiedShuffleSplit._iter_indices`:
for each class `c` with allocated count `k`, permute the positions of
class `c` and keep the first `k`, concatenating the results in class
order and threading the generator through. -/
def takeStratified {L : Type} [DecidableEq L] (targets : List L) :
    List (L × ℕ) → Rng → List ℕ × Rng
  | [], rng => ([], rng)
  | (c, k) :: rest, rng =>
    let (perm, rng') := rng.permuteList (indicesWithLabel targets c)
    let (tail, rng'') := takeStratified targets rest rng'
    (perm.take k ++ tail, rng'')

/-- `StratifiedShuffleSplit._iter_indices` restricted to the train half
(the only half `minimize_dataset.__call__` keeps): the class-count
validity checks, the `_approximate_mode` allocation of `n_train` among
the classes, the per-class permute-and-take, and the final permutation of
the collected train indices. -/
def stratifiedShuffleSplitTrain {L : Type} [LinearOrder L]
    (nTrain nTest : ℕ) (targets : List L) (seed : ℕ) :
    Except PyError (List ℕ) :=
  let classes := sortedClasses targets
  let classCounts := classes.map (fun c => targets.count c)
  if classCounts.any (fun k => k < 2) then
    .error (.valueError "The least populated class in y has only 1 member, which is too few. The minimum number of groups for any class cannot be less than 2.")
  else if nTrain < classes.length then
    .error (.valueError "The train_size should be greater or equal to the number of classes")
  else if nTest < classes.length then
    .error (.valueError "The test_size should be greater or equal to the number of classes")
  else
    let nI := approximateMode classCounts nTrain
    let (train, rng1) := takeStratified targets (classes.zip nI) (Rng.mk seed)
    .ok (rng1.permuteList train).1

/-- Model of the call
`train_test_split(np.arange(n), train_size=fraction/100, stratify=targets,
random_state=seed)` made on line 130 of `src/utils.py`, returning the
train-index list.  `_validate_shuffle_split` first rejects a float
`train_size` outside the open interval (0, 1), computes
`n_train = floor(train_size * n)` and `n_test = n - n_train`, and rejects
an empty train set; the stratified selection then runs on the class
structure of `targets`. -/
def train_test_split {L : Type} [LinearOrder L]
    (n : ℕ) (fraction : ℤ) (targets : List L) (seed : ℕ) :
    Except PyError (List ℕ) :=
  if ¬(0 < fraction ∧ fraction < 100) then
    .error (.valueError "train_size should be either positive and smaller than the number of samples or a float in the (0, 1) range")
  else
    let nTrain := fraction.toNat * n / 100
    let nTest := n - nTrain
    if nTrain = 0 then
      .error (.valueError "the resulting train set will be empty")
    else
      stratifiedShuffleSplitTrain nTrain nTest targets seed

/-- The `minimize_dataset` object of `src/utils.py` (lines 110-116): its
`__init__` just stores the dataset-producing function, the percentage
`dataset_size`, and the seed `random_value`, with no validation. -/
structure minimize_dataset (α L : Type) : Type where
  dataset_func : Unit → Dataset α L
  dataset_size : ℤ
  random_value : ℕ

/-- `minimize_dataset.__init__` (lines 112-116 of `src/utils.py`):
contains no `raise` and no check, so construction always succeeds. -/
def minimize_dataset.init {α L : Type} (dataset_func : Unit → Dataset α L)
    (dataset_size : ℤ) (random_value : ℕ) :
    Except PyError (minimize_dataset α L) :=
  .ok ⟨dataset_func, dataset_size, random_value⟩

/-- The `hasattr` chain of `minimize_dataset.__call__` (lines 121-128 of
`src/utils.py`): take `dataset.targets` if present, else
`dataset.labels` if present, else raise `NotImplementedError`. -/
def extractTargets {α L : Type} (dataset : Dataset α L) :
    Except PyError (List L) :=
  match dataset.targets with
  | some ts => .ok ts
  | none =>
    match dataset.labels with
    | some ls => .ok ls
    | none =>
      .error (.notImplementedError "dataset has no attribute names targets or labels. This attribute is required for minimizing a dataset")

/-- `minimize_dataset.__call__` (lines 118-137 of `src/utils.py`): build
the dataset, extract its label list, run the stratified split, and wrap
the train indices in a `torch.utils.data.Subset` view of the dataset. -/
def minimize_dataset.call {α L : Type} [LinearOrder L]
    (m : minimize_dataset α L) : Except PyError (TorchSubset α L) :=
  match extractTargets (m.dataset_func ()) with
  | .error e => .error e
  | .ok targets =>
    match train_test_split (m.dataset_func ()).items.length m.dataset_size targets
        m.random_value with
    | .error e => .error e
    | .ok train_indices => .ok ⟨m.dataset_func (), train_indices⟩

/-- `check_in_range` (lines 79-83 of `src/utils.py`): the argparse type
used to validate the fraction on the command line; raises
`ArgumentTypeError` unless `0 < value <= 100`. -/
def check_in_range (value : ℤ) : Except PyError ℤ :=
  if 0 < value ∧ value ≤ 100 then .ok value
  else .error (.argumentTypeError "is an invalid int value. Value has to be between 1 and 100")


/-! ## Concrete datasets for examples and witnesses -/

/-- A concrete dataset with 100 items and two balanced classes of 50
items each (labels 0 and 1), as in the specification's worked example. -/
def exampleDataset100 : Dataset ℕ ℕ :=
  ⟨List.range 100, some (List.replicate 50 0 ++ List.replicate 50 1), none⟩

/-- A concrete dataset with 20 items: 18 of class 0 and 2 of class 1. -/
def exampleDataset20 : Dataset ℕ ℕ :=
  ⟨List.range 20, some (List.replicate 18 0 ++ List.replicate 2 1), none⟩

/-- A concrete dataset exposing neither `targets` nor `labels`. -/
def exampleDatasetNoLabels : Dataset ℕ ℕ :=
  ⟨List.range 10, none, none⟩

/-- A concrete dataset exposing both `targets` and `labels`, with
different contents, to observe which attribute is consulted. -/
def exampleDatasetBoth : Dataset ℕ ℕ :=
  ⟨List.range 20, some (List.replicate 18 0 ++ List.replicate 2 1),
    some (List.replicate 10 0 ++ List.replicate 10 1)⟩

/-! ## Helper lemmas about the class decomposition -/

theorem mem_indicesWithLabel {L : Type} [DecidableEq L] {targets : List L} {c : L} {i : ℕ} :
    i ∈ indicesWithLabel targets c ↔ targets[i]? = some c := by
  unfold indicesWithLabel
  simp only [List.mem_map, List.mem_filter, decide_eq_true_eq]
  constructor
  · rintro ⟨⟨j, x⟩, ⟨hmem, hx⟩, rfl⟩
    subst hx
    exact List.mem_enum_iff_getElem?.mp hmem
  · intro h
    exact ⟨(i, c), ⟨List.mem_enum_iff_getElem?.mpr h, rfl⟩, rfl⟩

theorem lt_of_mem_indicesWithLabel {L : Type} [DecidableEq L] {targets : List L} {c : L} {i : ℕ}
    (h : i ∈ indicesWithLabel targets c) : i < targets.length := by
  rw [mem_indicesWithLabel] at h
  exact (List.getElem?_eq_some.mp h).1

theorem nodup_indicesWithLabel {L : Type} [DecidableEq L] (targets : List L) (c : L) :
    (indicesWithLabel targets c).Nodup := by
  have h : (indicesWithLabel targets c).Sublist (targets.enum.map Prod.fst) :=
    (List.filter_sublist _).map Prod.fst
  rw [List.enum_map_fst] at h
  exact h.nodup (List.nodup_range _)

theorem length_indicesWithLabel {L : Type} [DecidableEq L] (targets : List L) (c : L) :
    (indicesWithLabel targets c).length = targets.count c := by
  unfold indicesWithLabel
  rw [List.length_map, ← List.countP_eq_length_filter]
  have h1 : (fun (p : ℕ × L) => decide (p.2 = c)) = (fun x => decide (x = c)) ∘ Prod.snd := rfl
  rw [h1, ← List.countP_map, List.enum_map_snd, List.count]
  rfl

theorem nodup_sortedClasses {L : Type} [LinearOrder L] (targets : List L) :
    (sortedClasses targets).Nodup :=
  ((List.perm_insertionSort _ _).nodup_iff).mpr targets.nodup_dedup

theorem mem_sortedClasses {L : Type} [LinearOrder L] {targets : List L} {c : L} :
    c ∈ sortedClasses targets ↔ c ∈ targets := by
  unfold sortedClasses
  rw [(List.perm_insertionSort _ _).mem_iff, List.mem_dedup]

theorem sum_counts_sortedClasses {L : Type} [LinearOrder L] (targets : List L) :
    ((sortedClasses targets).map (fun c => targets.count c)).sum = targets.length := by
  have hnd := nodup_sortedClasses targets
  have h1 : ((sortedClasses targets).map (fun c => targets.count c)).sum
      = (sortedClasses targets).toFinset.sum (fun c => targets.count c) :=
    (List.sum_toFinset _ hnd).symm
  have h2 : (sortedClasses targets).toFinset = targets.toFinset := by
    ext a
    simp only [List.mem_toFinset, mem_sortedClasses]
  rw [h1, h2, List.sum_toFinset_count_eq_length]

/-! ## Helper lemmas about the count allocation (`_approximate_mode`) -/

theorem length_addExtras (l : List (ℕ × ℕ)) (need : ℕ) :
    (addExtras l need).length = l.length := by
  induction l generalizing need with
  | nil => rfl
  | cons p rest ih =>
    obtain ⟨q, r⟩ := p
    unfold addExtras
    by_cases h : r ≠ 0 ∧ 0 < need
    · simp [h, ih]
    · simp [h, ih]

theorem sum_addExtras (l : List (ℕ × ℕ)) (need : ℕ) :
    (addExtras l need).sum
      = (l.map Prod.fst).sum + min need (l.countP (fun p => p.2 ≠ 0)) := by
  induction l generalizing need with
  | nil => simp [addExtras]
  | cons p rest ih =>
    obtain ⟨q, r⟩ := p
    unfold addExtras
    by_cases h : r ≠ 0 ∧ 0 < need
    · obtain ⟨h1, h2⟩ := h
      simp only [if_pos (And.intro h1 h2), List.sum_cons, List.map_cons, ih, List.countP_cons]
      have hr : (decide (r ≠ 0)) = true := by simp [h1]
      rw [hr, if_pos rfl]
      omega
    · simp only [if_neg h, List.sum_cons, List.map_cons, ih, List.countP_cons]
      by_cases hr : r = 0
      · have hr2 : (decide (r ≠ 0)) = false := by simp [hr]
        rw [hr2, if_neg (by simp)]
        omega
      · have hr2 : (decide (r ≠ 0)) = true := by simp [hr]
        have hneed : ¬ 0 < need := fun hc => h ⟨hr, hc⟩
        rw [hr2, if_pos rfl]
        omega

theorem forall₂_addExtras (l : List (ℕ × ℕ)) (need : ℕ) :
    List.Forall₂ (fun p o => o = p.1 ∨ (o = p.1 + 1 ∧ p.2 ≠ 0)) l (addExtras l need) := by
  induction l generalizing need with
  | nil => exact List.Forall₂.nil
  | cons p rest ih =>
    obtain ⟨q, r⟩ := p
    unfold addExtras
    by_cases h : r ≠ 0 ∧ 0 < need
    · rw [if_pos h]
      exact List.Forall₂.cons (Or.inr ⟨rfl, h.1⟩) (ih _)
    · rw [if_neg h]
      exact List.Forall₂.cons (Or.inl rfl) (ih _)

theorem sum_le_countP_mul (l : List ℕ) (B : ℕ) (h : ∀ r ∈ l, r ≤ B) :
    l.sum ≤ (l.countP (fun r => r ≠ 0)) * B := by
  induction l with
  | nil => simp
  | cons r rest ih =>
    have hr := h r (List.mem_cons_self _ _)
    have hrest := ih (fun x hx => h x (List.mem_cons_of_mem _ hx))
    rw [List.sum_cons, List.countP_cons]
    by_cases h0 : r = 0
    · have h1 : (decide (r ≠ 0)) = false := by simp [h0]
      rw [h1, if_neg (by simp), Nat.add_zero]
      omega
    · have h1 : (decide (r ≠ 0)) = true := by simp [h0]
      rw [h1, if_pos rfl]
      have : (rest.countP (fun r => decide (r ≠ 0)) + 1) * B
          = rest.countP (fun r => decide (r ≠ 0)) * B + B := by ring
      omega

theorem sum_div_mod_eq (counts : List ℕ) (m total : ℕ) :
    ((counts.map (fun c => c * m / total)).sum) * total
      + (counts.map (fun c => c * m % total)).sum = counts.sum * m := by
  induction counts with
  | nil => simp
  | cons c rest ih =>
    simp only [List.map_cons, List.sum_cons]
    have h := Nat.div_add_mod (c * m) total
    nlinarith [ih, h]

theorem need_le_countP (counts : List ℕ) (m : ℕ)
    (htotal : 0 < counts.sum) :
    m - (counts.map (fun c => c * m / counts.sum)).sum
      ≤ (counts.map (fun c => (c * m / counts.sum, c * m % counts.sum))).countP
          (fun p => p.2 ≠ 0) := by
  have hid := sum_div_mod_eq counts m counts.sum
  have hcnt : (counts.map (fun c => (c * m / counts.sum, c * m % counts.sum))).countP
        (fun p => p.2 ≠ 0)
      = (counts.map (fun c => c * m % counts.sum)).countP (fun r => r ≠ 0) := by
    rw [List.countP_map, List.countP_map]
    rfl
  have hmodle : ∀ r ∈ counts.map (fun c => c * m % counts.sum), r ≤ counts.sum - 1 := by
    intro r hr
    obtain ⟨c, _, rfl⟩ := List.mem_map.mp hr
    have := Nat.mod_lt (c * m) htotal
    omega
  have hR := sum_le_countP_mul (counts.map (fun c => c * m % counts.sum))
    (counts.sum - 1) hmodle
  rw [hcnt]
  -- abbreviations for the four sums involved
  obtain ⟨t, ht⟩ : ∃ t, t = counts.sum := ⟨counts.sum, rfl⟩
  rw [← ht] at hid hR htotal ⊢
  obtain ⟨Q, hQdef⟩ : ∃ q, q = (counts.map (fun c => c * m / t)).sum := ⟨_, rfl⟩
  obtain ⟨R, hRdef⟩ : ∃ r, r = (counts.map (fun c => c * m % t)).sum := ⟨_, rfl⟩
  obtain ⟨pos, hposdef⟩ : ∃ p, p = (counts.map (fun c => c * m % t)).countP
    (fun r => r ≠ 0) := ⟨_, rfl⟩
  rw [← hQdef] at hid ⊢
  rw [← hRdef] at hid hR
  rw [← hposdef] at hR ⊢
  -- hid : Q * t + R = t * m
  have hQle : Q ≤ m := by
    have hcm : t * m = m * t := mul_comm t m
    have h1 : Q * t ≤ m * t := by omega
    exact Nat.le_of_mul_le_mul_right h1 htotal
  by_contra hc
  push_neg at hc
  have hc' : pos + 1 ≤ m - Q := hc
  have e0 : t * Q = Q * t := mul_comm t Q
  have e1 : t * (m - Q) + t * Q = t * m := by
    rw [← Nat.mul_add]
    congr 1
    omega
  have e2 : t * (pos + 1) ≤ t * (m - Q) := Nat.mul_le_mul_left t hc'
  have e3 : t * (pos + 1) = t * pos + t := by ring
  have e4 : pos * ((t - 1) + 1) = pos * (t - 1) + pos := Nat.mul_succ pos (t - 1)
  have e5 : (t - 1) + 1 = t := by omega
  rw [e5] at e4
  have e6 : pos * t = t * pos := mul_comm pos t
  omega

theorem approximateMode_sum (counts : List ℕ) (m : ℕ)
    (htotal : 0 < counts.sum) :
    (approximateMode counts m).sum = m := by
  unfold approximateMode
  rw [sum_addExtras]
  have hfst : (counts.map (fun c => (c * m / counts.sum, c * m % counts.sum))).map Prod.fst
      = counts.map (fun c => c * m / counts.sum) := by
    rw [List.map_map]
    rfl
  rw [hfst]
  have hneed := need_le_countP counts m htotal
  have hQle : (counts.map (fun c => c * m / counts.sum)).sum ≤ m := by
    have hid := sum_div_mod_eq counts m counts.sum
    have hcm : counts.sum * m = m * counts.sum := mul_comm _ _
    have h1 : (counts.map (fun c => c * m / counts.sum)).sum * counts.sum
        ≤ m * counts.sum := by omega
    exact Nat.le_of_mul_le_mul_right h1 htotal
  omega

/-- Every allocation of `_approximate_mode` is the floor of the class's
proportional share or that floor plus one (the latter only when the share
has a positive remainder); in particular it is at most the class count
and within one unit of the exact share `c * m / total`. -/
theorem approximateMode_bounds (counts : List ℕ) (m : ℕ)
    (htotal : 0 < counts.sum) (hle : m ≤ counts.sum) :
    List.Forall₂
      (fun c o => o ≤ c ∧ c * m ≤ (o + 1) * counts.sum ∧ o * counts.sum ≤ c * m + counts.sum)
      counts (approximateMode counts m) := by
  unfold approximateMode
  have hall := forall₂_addExtras
    (counts.map (fun c => (c * m / counts.sum, c * m % counts.sum)))
    (m - ((counts.map (fun c => (c * m / counts.sum, c * m % counts.sum))).map Prod.fst).sum)
  rw [List.forall₂_map_left_iff] at hall
  refine hall.imp ?_
  intro c o h
  dsimp only at h
  obtain ⟨t, ht⟩ : ∃ t, t = counts.sum := ⟨counts.sum, rfl⟩
  rw [← ht] at h htotal hle ⊢
  have hdm := Nat.div_add_mod (c * m) t
  have hrlt : c * m % t < t := Nat.mod_lt _ htotal
  have hcm : c * m ≤ c * t := Nat.mul_le_mul_left c hle
  obtain ⟨q, hq⟩ : ∃ q, q = c * m / t := ⟨_, rfl⟩
  obtain ⟨r, hr⟩ : ∃ r, r = c * m % t := ⟨_, rfl⟩
  rw [← hq] at h hdm
  rw [← hr] at h hdm hrlt
  have ect : c * t = t * c := mul_comm c t
  have eq1 : q * t = t * q := mul_comm q t
  have eq2 : (q + 1) * t = t * q + t := by ring
  have eq3 : (q + 1 + 1) * t = t * q + t + t := by ring
  rcases h with h | ⟨h, hrne⟩
  · subst h
    have hqc : o ≤ c := by
      have h1 : t * o ≤ t * c := by omega
      exact Nat.le_of_mul_le_mul_left h1 htotal
    exact ⟨hqc, by omega, by omega⟩
  · subst h
    have hqc : q < c := by
      have h1 : t * q < t * c := by omega
      exact Nat.lt_of_mul_lt_mul_left h1
    exact ⟨by omega, by omega, by omega⟩

theorem approximateMode_length (counts : List ℕ) (m : ℕ) :
    (approximateMode counts m).length = counts.length := by
  unfold approximateMode
  rw [length_addExtras, List.length_map]

/-! ## Helper lemmas about the per-class selection loop -/

theorem permuteList_perm {α : Type} (r : Rng) (l : List α) :
    (r.permuteList l).1.Perm l :=
  List.rotate_perm l _

theorem takeStratified_cons {L : Type} [DecidableEq L] (targets : List L)
    (c : L) (k : ℕ) (rest : List (L × ℕ)) (rng : Rng) :
    takeStratified targets ((c, k) :: rest) rng
      = ((rng.permuteList (indicesWithLabel targets c)).1.take k
            ++ (takeStratified targets rest (rng.permuteList (indicesWithLabel targets c)).2).1,
         (takeStratified targets rest (rng.permuteList (indicesWithLabel targets c)).2).2) := by
  rfl

theorem mem_takeStratified {L : Type} [DecidableEq L] {targets : List L}
    {pairs : List (L × ℕ)} {rng : Rng} {i : ℕ}
    (h : i ∈ (takeStratified targets pairs rng).1) :
    ∃ p ∈ pairs, targets[i]? = some p.1 := by
  induction pairs generalizing rng with
  | nil => simp [takeStratified] at h
  | cons p rest ih =>
    obtain ⟨c, k⟩ := p
    rw [takeStratified_cons] at h
    rcases List.mem_append.mp h with h1 | h2
    · have h3 : i ∈ (rng.permuteList (indicesWithLabel targets c)).1 :=
        List.mem_of_mem_take h1
      have h4 : i ∈ indicesWithLabel targets c :=
        (permuteList_perm rng _).mem_iff.mp h3
      exact ⟨(c, k), List.mem_cons_self _ _, mem_indicesWithLabel.mp h4⟩
    · obtain ⟨p, hp, hlab⟩ := ih h2
      exact ⟨p, List.mem_cons_of_mem _ hp, hlab⟩

theorem length_takeStratified {L : Type} [DecidableEq L] (targets : List L)
    (pairs : List (L × ℕ)) (rng : Rng)
    (hb : ∀ p ∈ pairs, p.2 ≤ (indicesWithLabel targets p.1).length) :
    (takeStratified targets pairs rng).1.length = (pairs.map Prod.snd).sum := by
  induction pairs generalizing rng with
  | nil => simp [takeStratified]
  | cons p rest ih =>
    obtain ⟨c, k⟩ := p
    rw [takeStratified_cons]
    have hlen : (rng.permuteList (indicesWithLabel targets c)).1.length
        = (indicesWithLabel targets c).length :=
      (permuteList_perm rng _).length_eq
    have hk : k ≤ (indicesWithLabel targets c).length := hb (c, k) (List.mem_cons_self _ _)
    have htail := ih (rng.permuteList (indicesWithLabel targets c)).2
      (fun p hp => hb p (List.mem_cons_of_mem _ hp))
    simp only [List.length_append, List.length_take, htail, List.map_cons, List.sum_cons, hlen]
    omega

theorem nodup_takeStratified {L : Type} [DecidableEq L] (targets : List L)
    (pairs : List (L × ℕ)) (rng : Rng)
    (hnd : (pairs.map Prod.fst).Nodup) :
    (takeStratified targets pairs rng).1.Nodup := by
  induction pairs generalizing rng with
  | nil => simp [takeStratified]
  | cons p rest ih =>
    obtain ⟨c, k⟩ := p
    rw [takeStratified_cons]
    rw [List.map_cons, List.nodup_cons] at hnd
    rw [List.nodup_append]
    refine ⟨?_, ih _ hnd.2, ?_⟩
    · exact (List.take_sublist _ _).nodup
        (List.nodup_rotate.mpr (nodup_indicesWithLabel targets c))
    · intro i hi hitail
      have h4 : i ∈ indicesWithLabel targets c :=
        (permuteList_perm rng _).mem_iff.mp (List.mem_of_mem_take hi)
      have h5 : targets[i]? = some c := mem_indicesWithLabel.mp h4
      obtain ⟨p, hp, hlab⟩ := mem_takeStratified hitail
      have h6 : p.1 = c := by
        rw [h5] at hlab
        exact (Option.some_inj.mp hlab.symm)
      have h7 : p.1 ∈ rest.map Prod.fst := List.mem_map_of_mem Prod.fst hp
      rw [h6] at h7
      exact hnd.1 h7

theorem countP_takeStratified {L : Type} [DecidableEq L] (targets : List L)
    (pairs : List (L × ℕ)) (rng : Rng) (c : L)
    (hb : ∀ p ∈ pairs, p.2 ≤ (indicesWithLabel targets p.1).length) :
    ((takeStratified targets pairs rng).1.countP (fun i => targets[i]? = some c))
      = ((pairs.filter (fun p => p.1 = c)).map Prod.snd).sum := by
  induction pairs generalizing rng with
  | nil => simp [takeStratified]
  | cons p rest ih =>
    obtain ⟨c', k⟩ := p
    rw [takeStratified_cons]
    have hk : k ≤ (indicesWithLabel targets c').length := hb (c', k) (List.mem_cons_self _ _)
    have htail := ih (rng.permuteList (indicesWithLabel targets c')).2
      (fun p hp => hb p (List.mem_cons_of_mem _ hp))
    have hlen : (rng.permuteList (indicesWithLabel targets c')).1.length
        = (indicesWithLabel targets c').length :=
      (permuteList_perm rng _).length_eq
    have hmemlab : ∀ i ∈ (rng.permuteList (indicesWithLabel targets c')).1.take k,
        targets[i]? = some c' := by
      intro i hi
      exact mem_indicesWithLabel.mp
        ((permuteList_perm rng _).mem_iff.mp (List.mem_of_mem_take hi))
    rw [List.countP_append, htail, List.filter_cons]
    by_cases hc : c' = c
    · subst hc
      have h1 : ((rng.permuteList (indicesWithLabel targets c')).1.take k).countP
          (fun i => targets[i]? = some c') = k := by
        rw [List.countP_eq_length.mpr]
        · rw [List.length_take, hlen]
          omega
        · intro i hi
          simp [hmemlab i hi]
      rw [h1]
      simp
    · have h1 : ((rng.permuteList (indicesWithLabel targets c')).1.take k).countP
          (fun i => targets[i]? = some c) = 0 := by
        rw [List.countP_eq_zero.mpr]
        intro i hi
        simp [hmemlab i hi]
        exact hc
      rw [h1]
      have h2 : (decide (c' = c)) = false := by simp [hc]
      rw [h2]
      simp

/-! ## Inversion of a successful split -/

/-- A dataset is well-formed when any label list it exposes assigns one
label to each index of the item sequence (the spec's data-model
invariant: every index in `[0, length)` has exactly one label). -/
def Dataset.WellFormed {α L : Type} (d : Dataset α L) : Prop :=
  (∀ ts, d.targets = some ts → ts.length = d.items.length) ∧
  (∀ ls, d.labels = some ls → ls.length = d.items.length)

theorem extractTargets_length {α L : Type} {d : Dataset α L} {ts : List L}
    (hw : d.WellFormed) (h : extractTargets d = .ok ts) :
    ts.length = d.items.length := by
  unfold extractTargets at h
  cases htg : d.targets with
  | some ts0 =>
    rw [htg] at h
    injection h with h
    subst h
    exact hw.1 _ htg
  | none =>
    rw [htg] at h
    cases hlb : d.labels with
    | some ls0 =>
      rw [hlb] at h
      injection h with h
      subst h
      exact hw.2 _ hlb
    | none =>
      rw [hlb] at h
      exact Except.noConfusion h

theorem splitTrain_ok_elim {L : Type} [LinearOrder L] {nTrain nTest : ℕ}
    {targets : List L} {seed : ℕ} {sel : List ℕ}
    (h : stratifiedShuffleSplitTrain nTrain nTest targets seed = .ok sel) :
    (sortedClasses targets).length ≤ nTrain
    ∧ (sortedClasses targets).length ≤ nTest
    ∧ (∀ c ∈ sortedClasses targets, 2 ≤ targets.count c)
    ∧ sel.Perm (takeStratified targets
        ((sortedClasses targets).zip
          (approximateMode ((sortedClasses targets).map (fun c => targets.count c)) nTrain))
        (Rng.mk seed)).1 := by
  unfold stratifiedShuffleSplitTrain at h
  by_cases h1 : ((sortedClasses targets).map (fun c => targets.count c)).any (fun k => k < 2)
  · rw [if_pos h1] at h
    exact Except.noConfusion h
  rw [if_neg h1] at h
  by_cases h2 : nTrain < (sortedClasses targets).length
  · rw [if_pos h2] at h
    exact Except.noConfusion h
  rw [if_neg h2] at h
  by_cases h3 : nTest < (sortedClasses targets).length
  · rw [if_pos h3] at h
    exact Except.noConfusion h
  rw [if_neg h3] at h
  have hcnt : ∀ c ∈ sortedClasses targets, 2 ≤ targets.count c := by
    intro c hc
    by_contra hlt
    exact h1 (List.any_eq_true.mpr
      ⟨targets.count c, List.mem_map_of_mem _ hc, by simp; omega⟩)
  refine ⟨by omega, by omega, hcnt, ?_⟩
  injection h with h4
  rw [← h4]
  exact permuteList_perm _ _

theorem zip_alloc_forall₂ {L : Type} [LinearOrder L] (targets : List L) (nTrain : ℕ)
    (htot : 0 < targets.length) (hle : nTrain ≤ targets.length) :
    List.Forall₂
      (fun c o => o ≤ targets.count c
        ∧ targets.count c * nTrain ≤ (o + 1) * targets.length
        ∧ o * targets.length ≤ targets.count c * nTrain + targets.length)
      (sortedClasses targets)
      (approximateMode ((sortedClasses targets).map (fun c => targets.count c)) nTrain) := by
  have hsum := sum_counts_sortedClasses targets
  have hfa := approximateMode_bounds ((sortedClasses targets).map (fun c => targets.count c))
    nTrain (by rw [hsum]; exact htot) (by rw [hsum]; exact hle)
  rw [List.forall₂_map_left_iff] at hfa
  refine hfa.imp ?_
  intro c o h
  rw [hsum] at h
  exact h

theorem zip_alloc_bounds {L : Type} [LinearOrder L] (targets : List L) (nTrain : ℕ)
    (htot : 0 < targets.length) (hle : nTrain ≤ targets.length) :
    ∀ p ∈ (sortedClasses targets).zip
        (approximateMode ((sortedClasses targets).map (fun c => targets.count c)) nTrain),
      p.2 ≤ (indicesWithLabel targets p.1).length := by
  have hfa := zip_alloc_forall₂ targets nTrain htot hle
  rw [List.forall₂_iff_zip] at hfa
  intro p hp
  obtain ⟨c, k⟩ := p
  rw [length_indicesWithLabel]
  exact (hfa.2 hp).1

theorem splitTrain_sel_length {L : Type} [LinearOrder L] {nTrain nTest seed : ℕ}
    {sel : List ℕ} {targets : List L}
    (h : stratifiedShuffleSplitTrain nTrain nTest targets seed = .ok sel)
    (htot : 0 < targets.length) (hle : nTrain ≤ targets.length) :
    sel.length = nTrain := by
  obtain ⟨-, -, -, hperm⟩ := splitTrain_ok_elim h
  rw [hperm.length_eq]
  rw [length_takeStratified _ _ _ (zip_alloc_bounds targets nTrain htot hle)]
  have hlen : (approximateMode ((sortedClasses targets).map (fun c => targets.count c))
      nTrain).length ≤ (sortedClasses targets).length := by
    rw [approximateMode_length, List.length_map]
  rw [List.map_snd_zip _ _ hlen]
  rw [approximateMode_sum]
  rw [sum_counts_sortedClasses]
  exact htot

theorem splitTrain_sel_nodup {L : Type} [LinearOrder L] {nTrain nTest seed : ℕ}
    {sel : List ℕ} {targets : List L}
    (h : stratifiedShuffleSplitTrain nTrain nTest targets seed = .ok sel) :
    sel.Nodup := by
  obtain ⟨-, -, -, hperm⟩ := splitTrain_ok_elim h
  refine hperm.symm.nodup ?_
  apply nodup_takeStratified
  have hlen : (sortedClasses targets).length
      ≤ (approximateMode ((sortedClasses targets).map (fun c => targets.count c))
          nTrain).length := by
    rw [approximateMode_length, List.length_map]
  rw [List.map_fst_zip _ _ hlen]
  exact nodup_sortedClasses targets

theorem splitTrain_sel_lt {L : Type} [LinearOrder L] {nTrain nTest seed : ℕ}
    {sel : List ℕ} {targets : List L}
    (h : stratifiedShuffleSplitTrain nTrain nTest targets seed = .ok sel) :
    ∀ i ∈ sel, i < targets.length := by
  obtain ⟨-, -, -, hperm⟩ := splitTrain_ok_elim h
  intro i hi
  obtain ⟨p, -, hlab⟩ := mem_takeStratified (hperm.mem_iff.mp hi)
  exact (List.getElem?_eq_some.mp hlab).1

theorem filter_zip_of_not_mem {β L : Type} [DecidableEq L] {l : List L} {l' : List β} {c : L}
    (h : c ∉ l) : (l.zip l').filter (fun p => p.1 = c) = [] := by
  rw [List.filter_eq_nil_iff]
  intro p hp
  obtain ⟨a, b⟩ := p
  have ha := (List.of_mem_zip hp).1
  simp only [decide_eq_true_eq]
  intro hc
  rw [hc] at ha
  exact h ha

theorem sum_filter_zip_forall₂ {L : Type} [DecidableEq L] {P : L → ℕ → Prop}
    {classes : List L} {nI : List ℕ}
    (hf : List.Forall₂ P classes nI) (hnd : classes.Nodup) {c : L} (hc : c ∈ classes) :
    ∃ o, P c o ∧ (((classes.zip nI).filter (fun p => p.1 = c)).map Prod.snd).sum = o := by
  induction hf with
  | nil => simp at hc
  | @cons a b l l' hab hrest ih =>
    rw [List.nodup_cons] at hnd
    rw [List.zip_cons_cons, List.filter_cons]
    by_cases hac : a = c
    · subst hac
      have hfilter : (l.zip l').filter (fun p => p.1 = a) = [] :=
        filter_zip_of_not_mem hnd.1
      refine ⟨b, hab, ?_⟩
      have hcond : (decide ((a, b).1 = a)) = true := by simp
      rw [hcond, if_pos rfl, hfilter]
      simp
    · rcases List.mem_cons.mp hc with h | h
      · exact absurd h.symm hac
      · obtain ⟨o, hP, hsum⟩ := ih hnd.2 h
        refine ⟨o, hP, ?_⟩
        have hcond : (decide ((a, b).1 = c)) = false := by simp [hac]
        rw [hcond, if_neg (by simp)]
        exact hsum

theorem splitTrain_sel_count {L : Type} [LinearOrder L] {nTrain nTest seed : ℕ}
    {sel : List ℕ} {targets : List L}
    (h : stratifiedShuffleSplitTrain nTrain nTest targets seed = .ok sel)
    (htot : 0 < targets.length) (hle : nTrain ≤ targets.length) {c : L} (hc : c ∈ targets) :
    ∃ o, sel.countP (fun i => targets[i]? = some c) = o
      ∧ o ≤ targets.count c
      ∧ targets.count c * nTrain ≤ (o + 1) * targets.length
      ∧ o * targets.length ≤ targets.count c * nTrain + targets.length := by
  obtain ⟨-, -, -, hperm⟩ := splitTrain_ok_elim h
  have hfa := zip_alloc_forall₂ targets nTrain htot hle
  have hc' : c ∈ sortedClasses targets := mem_sortedClasses.mpr hc
  obtain ⟨o, hP, hsum⟩ := sum_filter_zip_forall₂ hfa (nodup_sortedClasses targets) hc'
  refine ⟨o, ?_, hP.1, hP.2.1, hP.2.2⟩
  rw [hperm.countP_eq]
  rw [countP_takeStratified _ _ _ _ (zip_alloc_bounds targets nTrain htot hle)]
  exact hsum

theorem train_test_split_ok_elim {L : Type} [LinearOrder L] {n : ℕ} {f : ℤ}
    {ts : List L} {s : ℕ} {sel : List ℕ}
    (h : train_test_split n f ts s = .ok sel) :
    0 < f ∧ f < 100 ∧ f.toNat * n / 100 ≠ 0
      ∧ stratifiedShuffleSplitTrain (f.toNat * n / 100) (n - f.toNat * n / 100) ts s
          = .ok sel := by
  unfold train_test_split at h
  by_cases h1 : 0 < f ∧ f < 100
  · rw [if_neg (not_not_intro h1)] at h
    by_cases h2 : f.toNat * n / 100 = 0
    · rw [if_pos h2] at h
      exact Except.noConfusion h
    · rw [if_neg h2] at h
      exact ⟨h1.1, h1.2, h2, h⟩
  · rw [if_pos h1] at h
    exact Except.noConfusion h

theorem call_ok_elim {α L : Type} [LinearOrder L] {m : minimize_dataset α L}
    {sub : TorchSubset α L}
    (h : m.call = .ok sub) :
    ∃ ts, extractTargets (m.dataset_func ()) = .ok ts
      ∧ sub.dataset = m.dataset_func ()
      ∧ train_test_split (m.dataset_func ()).items.length m.dataset_size ts m.random_value
          = .ok sub.indices := by
  unfold minimize_dataset.call at h
  cases hts : extractTargets (m.dataset_func ()) with
  | error e =>
    rw [hts] at h
    exact Except.noConfusion h
  | ok ts =>
    rw [hts] at h
    dsimp only at h
    cases hsplit : train_test_split (m.dataset_func ()).items.length m.dataset_size ts
        m.random_value with
    | error e =>
      rw [hsplit] at h
      exact Except.noConfusion h
    | ok sel =>
      rw [hsplit] at h
      injection h with h
      exact ⟨ts, rfl, by rw [← h], by rw [← h]; exact hsplit⟩

/-! ## Claim theorems -/

/-- C4: Missing-label error.  For every dataset exposing neither a
`targets` nor a `labels` attribute, calling the subsampler raises the
missing-label configuration error (`NotImplementedError` in the code,
the spec's `ConfigurationError`), and it does so before any sampling: the
same error results for every fraction and every seed.  For every dataset
exposing at least one of the two attributes, this error is never
raised (the call may still fail, but only with a `ValueError` from the
split validation, never with the missing-label error). -/
theorem missing_labels_error {α L : Type} [LinearOrder L]
    (dataset_func : Unit → Dataset α L) (dataset_size : ℤ) (random_value : ℕ) :
    (((dataset_func ()).targets = none ∧ (dataset_func ()).labels = none) →
      minimize_dataset.call ⟨dataset_func, dataset_size, random_value⟩
        = .error (.notImplementedError "dataset has no attribute names targets or labels. This attribute is required for minimizing a dataset"))
    ∧ (((dataset_func ()).targets ≠ none ∨ (dataset_func ()).labels ≠ none) →
      ∀ msg, minimize_dataset.call ⟨dataset_func, dataset_size, random_value⟩
        ≠ .error (.notImplementedError msg)) := by
  constructor
  · intro ⟨h1, h2⟩
    unfold minimize_dataset.call extractTargets
    dsimp only
    rw [h1, h2]
  · intro hattr msg
    have hok : ∃ ts, extractTargets (dataset_func ()) = .ok ts := by
      unfold extractTargets
      cases htg : (dataset_func ()).targets with
      | some ts => exact ⟨ts, rfl⟩
      | none =>
        cases hlb : (dataset_func ()).labels with
        | some ls => exact ⟨ls, rfl⟩
        | none =>
          rcases hattr with h | h
          · exact absurd htg h
          · exact absurd hlb h
    obtain ⟨ts, hts⟩ := hok
    unfold minimize_dataset.call
    rw [hts]
    dsimp only
    cases hsp : train_test_split (dataset_func ()).items.length dataset_size ts
        random_value with
    | error e =>
      obtain ⟨-, -, -, hmsg⟩ : True ∧ True ∧ True ∧ ∃ s, e = .valueError s := by
        refine ⟨trivial, trivial, trivial, ?_⟩
        unfold train_test_split at hsp
        by_cases h1 : 0 < dataset_size ∧ dataset_size < 100
        · rw [if_neg (not_not_intro h1)] at hsp
          by_cases h2 : dataset_size.toNat * (dataset_func ()).items.length / 100 = 0
          · rw [if_pos h2] at hsp
            injection hsp with hsp
            exact ⟨_, hsp.symm⟩
          · rw [if_neg h2] at hsp
            unfold stratifiedShuffleSplitTrain at hsp
            by_cases h3 : ((sortedClasses ts).map (fun c => ts.count c)).any (fun k => k < 2)
            · rw [if_pos h3] at hsp
              injection hsp with hsp
              exact ⟨_, hsp.symm⟩
            rw [if_neg h3] at hsp
            by_cases h4 : dataset_size.toNat * (dataset_func ()).items.length / 100
                < (sortedClasses ts).length
            · rw [if_pos h4] at hsp
              injection hsp with hsp
              exact ⟨_, hsp.symm⟩
            rw [if_neg h4] at hsp
            by_cases h5 : (dataset_func ()).items.length
                - dataset_size.toNat * (dataset_func ()).items.length / 100
                < (sortedClasses ts).length
            · rw [if_pos h5] at hsp
              injection hsp with hsp
              exact ⟨_, hsp.symm⟩
            rw [if_neg h5] at hsp
            exact Except.noConfusion hsp
        · rw [if_pos h1] at hsp
          injection hsp with hsp
          exact ⟨_, hsp.symm⟩
      obtain ⟨s, rfl⟩ := hmsg
      intro hcontra
      injection hcontra with hcontra
      exact PyError.noConfusion hcontra
    | ok sel =>
      intro hcontra
      exact Except.noConfusion hcontra

/-- Witness for C4: the dataset with neither attribute produces the
missing-label error at fraction 10, seed 0; the dataset with a `targets`
attribute never does (here the small class of `exampleDataset20` has two
members, so the call in fact succeeds). -/
theorem missing_labels_error_witness :
    minimize_dataset.call (⟨fun _ => exampleDatasetNoLabels, 10, 0⟩ : minimize_dataset ℕ ℕ)
        = .error (.notImplementedError "dataset has no attribute names targets or labels. This attribute is required for minimizing a dataset")
    ∧ ∀ msg, minimize_dataset.call (⟨fun _ => exampleDataset20, 10, 0⟩ : minimize_dataset ℕ ℕ)
        ≠ .error (.notImplementedError msg) :=
  ⟨(missing_labels_error (fun _ => exampleDatasetNoLabels) 10 0).1 ⟨rfl, rfl⟩,
   (missing_labels_error (fun _ => exampleDataset20) 10 0).2
     (Or.inl (fun h => Option.noConfusion h))⟩

/-- Counterexample to C5 as stated: constructing the subsampler with
fraction 0 — outside (0, 100] — succeeds; `minimize_dataset.__init__`
performs no validation and raises nothing at construction time. -/
theorem fraction_validation_counterexample :
    minimize_dataset.init (fun _ => exampleDataset20) 0 0
      = .ok (⟨fun _ => exampleDataset20, 0, 0⟩ : minimize_dataset ℕ ℕ) :=
  rfl

/-- C5 (amended): the fraction is validated not by the subsampler's
constructor but by `check_in_range`, the argparse type used when the
fraction is configured on the command line: every fraction outside
(0, 100] is rejected there with the configuration error
(`ArgumentTypeError`), and every fraction in (0, 100] is accepted and
returned unchanged.  The subsampler constructor itself stores its
arguments and always succeeds, whatever the fraction. -/
theorem fraction_validation_amended {α L : Type}
    (v w : ℤ) (dataset_func : Unit → Dataset α L) (dataset_size : ℤ) (random_value : ℕ)
    (hv : ¬(0 < v ∧ v ≤ 100)) (hw : 0 < w ∧ w ≤ 100) :
    check_in_range v
      = .error (.argumentTypeError "is an invalid int value. Value has to be between 1 and 100")
    ∧ check_in_range w = .ok w
    ∧ minimize_dataset.init dataset_func dataset_size random_value
        = .ok ⟨dataset_func, dataset_size, random_value⟩ := by
  refine ⟨?_, ?_, rfl⟩
  · unfold check_in_range
    rw [if_neg hv]
  · unfold check_in_range
    rw [if_pos hw]

/-- Witness for the amended C5: fraction 0 is rejected by
`check_in_range`, fraction 100 is accepted, and construction with
fraction 0 still succeeds. -/
theorem fraction_validation_amended_witness :
    check_in_range 0
      = .error (.argumentTypeError "is an invalid int value. Value has to be between 1 and 100")
    ∧ check_in_range 100 = .ok 100
    ∧ minimize_dataset.init (fun _ => exampleDataset20) 0 0
        = .ok (⟨fun _ => exampleDataset20, 0, 0⟩ : minimize_dataset ℕ ℕ) :=
  fraction_validation_amended 0 100 (fun _ => exampleDataset20) 0 0
    (by omega) (by omega)

/-- C6 (code bug): with fraction 100 the spec promises the subset equals
the full dataset, and the repository's own validator `check_in_range`
accepts 100 as valid; but the call crashes: sklearn's
`_validate_shuffle_split` rejects the float `train_size = 100/100 = 1.0`
(it must lie strictly inside (0, 1)), so `minimize_dataset.__call__`
raises `ValueError` instead of returning the full dataset.  This theorem
evaluates the code at the failing input. -/
theorem full_fraction_raises :
    minimize_dataset.call (⟨fun _ => exampleDataset100, 100, 42⟩ : minimize_dataset ℕ ℕ)
      = .error (.valueError "train_size should be either positive and smaller than the number of samples or a float in the (0, 1) range")
    ∧ check_in_range 100 = .ok 100 := by
  constructor
  · rfl
  · rfl

/-- C9: attribute precedence.  When a dataset exposes both `targets` and
`labels`, the subsampler stratifies on `targets`: the label extraction
returns the `targets` list, and the selected-index sequence of the call
does not depend on the `labels` attribute at all (replacing it by any
other list, or removing it, leaves the selected indices unchanged). -/
theorem targets_precedence {α L : Type} [LinearOrder L]
    (dataset_size : ℤ) (random_value : ℕ) (items : List α) (ts : List L)
    (ls₁ ls₂ : Option (List L)) :
    extractTargets (⟨items, some ts, ls₁⟩ : Dataset α L) = .ok ts
    ∧ (minimize_dataset.call ⟨fun _ => ⟨items, some ts, ls₁⟩, dataset_size, random_value⟩).map
        TorchSubset.indices
      = (minimize_dataset.call ⟨fun _ => ⟨items, some ts, ls₂⟩, dataset_size, random_value⟩).map
        TorchSubset.indices := by
  refine ⟨rfl, ?_⟩
  unfold minimize_dataset.call
  dsimp only
  show ((match train_test_split items.length dataset_size ts random_value with
      | .error e => (.error e : Except PyError (TorchSubset α L))
      | .ok sel => .ok ⟨⟨items, some ts, ls₁⟩, sel⟩).map TorchSubset.indices)
    = ((match train_test_split items.length dataset_size ts random_value with
      | .error e => (.error e : Except PyError (TorchSubset α L))
      | .ok sel => .ok ⟨⟨items, some ts, ls₂⟩, sel⟩).map TorchSubset.indices)
  cases train_test_split items.length dataset_size ts random_value with
  | error e => rfl
  | ok sel => rfl

/-- Witness for C9: on a dataset carrying both attributes the extraction
returns the `targets` list, and swapping the `labels` list for `none`
leaves the selected indices unchanged. -/
theorem targets_precedence_witness :
    extractTargets (⟨List.range 20,
        some (List.replicate 18 0 ++ List.replicate 2 1),
        some (List.replicate 10 0 ++ List.replicate 10 1)⟩ : Dataset ℕ ℕ)
      = .ok (List.replicate 18 0 ++ List.replicate 2 1)
    ∧ (minimize_dataset.call ⟨fun _ => ⟨List.range 20,
          some (List.replicate 18 0 ++ List.replicate 2 1),
          some (List.replicate 10 0 ++ List.replicate 10 1)⟩, 10, 0⟩).map
        TorchSubset.indices
      = (minimize_dataset.call ⟨fun _ => ⟨List.range 20,
          some (List.replicate 18 0 ++ List.replicate 2 1), none⟩, 10, 0⟩).map
        TorchSubset.indices :=
  targets_precedence 10 0 (List.range 20) (List.replicate 18 0 ++ List.replicate 2 1)
    (some (List.replicate 10 0 ++ List.replicate 10 1)) none

/-- C1: determinism.  The selected-index sequence is a pure function of
the dataset's labels (as extracted by the `targets`/`labels` probe), the
dataset's length, the fraction, and the seed: two subsamplers built with
the same fraction and seed, over datasets of the same length whose label
extraction agrees, produce bit-identical selected-index sequences.  In
particular two calls of the same subsampler return identical indices. -/
theorem subsample_deterministic {α₁ α₂ L : Type} [LinearOrder L]
    (m₁ : minimize_dataset α₁ L) (m₂ : minimize_dataset α₂ L)
    (hsize : m₁.dataset_size = m₂.dataset_size)
    (hseed : m₁.random_value = m₂.random_value)
    (hlen : (m₁.dataset_func ()).items.length = (m₂.dataset_func ()).items.length)
    (htg : extractTargets (m₁.dataset_func ()) = extractTargets (m₂.dataset_func ())) :
    m₁.call.map TorchSubset.indices = m₂.call.map TorchSubset.indices := by
  unfold minimize_dataset.call
  have htg2 : extractTargets (m₂.dataset_func ()) = extractTargets (m₁.dataset_func ()) :=
    htg.symm
  cases hts : extractTargets (m₁.dataset_func ()) with
  | error e =>
    rw [hts] at htg2
    rw [htg2]
    rfl
  | ok ts =>
    rw [hts] at htg2
    rw [htg2]
    dsimp only
    rw [hsize, hseed, hlen]
    cases train_test_split (m₂.dataset_func ()).items.length m₂.dataset_size ts
        m₂.random_value with
    | error e => rfl
    | ok sel => rfl

/-- Witness for C1: two subsamplers over the same 20-item dataset with
fraction 10 and seed 7 produce identical selected-index sequences. -/
theorem subsample_deterministic_witness :
    (minimize_dataset.call (⟨fun _ => exampleDataset20, 10, 7⟩ : minimize_dataset ℕ ℕ)).map
        TorchSubset.indices
      = (minimize_dataset.call (⟨fun _ => exampleDataset20, 10, 7⟩ : minimize_dataset ℕ ℕ)).map
        TorchSubset.indices :=
  subsample_deterministic ⟨fun _ => exampleDataset20, 10, 7⟩
    ⟨fun _ => exampleDataset20, 10, 7⟩ rfl rfl rfl rfl

/-- C7: view correctness.  A successful call returns an indexed view over
the original dataset restricted to the selected indices: the view's
dataset is the dataset the subsampler built, its length is the number of
selected indices, and element `i` of the view is element
`selected_indices[i]` of the original item sequence (so the original
item/label pairing is preserved). -/
theorem subset_view_correct {α L : Type} [LinearOrder L]
    (m : minimize_dataset α L) (sub : TorchSubset α L)
    (hok : m.call = .ok sub) :
    sub.dataset = m.dataset_func ()
    ∧ sub.len = sub.indices.length
    ∧ ∀ i, (h : i < sub.indices.length) →
        sub.getitem i = (m.dataset_func ()).items[sub.indices.get ⟨i, h⟩]? := by
  obtain ⟨ts, -, hds, -⟩ := call_ok_elim hok
  refine ⟨hds, rfl, ?_⟩
  intro i h
  unfold TorchSubset.getitem
  rw [List.getElem?_eq_getElem h]
  rw [hds]
  rfl

/-- Witness for C7: on the 20-item dataset with fraction 10 and seed 0
the call succeeds with selected indices `[16, 15]`; position 0 of the
view is item 16 of the original dataset. -/
theorem subset_view_correct_witness :
    (⟨exampleDataset20, [16, 15]⟩ : TorchSubset ℕ ℕ).dataset = exampleDataset20
    ∧ (⟨exampleDataset20, [16, 15]⟩ : TorchSubset ℕ ℕ).len = 2
    ∧ (⟨exampleDataset20, [16, 15]⟩ : TorchSubset ℕ ℕ).getitem 0
        = exampleDataset20.items[([16, 15] : List ℕ).get ⟨0, by decide⟩]? := by
  have h := subset_view_correct (⟨fun _ => exampleDataset20, 10, 0⟩ : minimize_dataset ℕ ℕ)
    ⟨exampleDataset20, [16, 15]⟩ rfl
  exact ⟨h.1, h.2.1, h.2.2 0 (by decide)⟩

/-- C10: selected-index invariant.  Whenever the subsampler returns
successfully on a well-formed labelled dataset, every selected index
lies in `[0, len(D))` and the selected indices are pairwise distinct
(sampling is without replacement). -/
theorem selected_indices_invariant {α L : Type} [LinearOrder L]
    (m : minimize_dataset α L) (sub : TorchSubset α L)
    (hw : (m.dataset_func ()).WellFormed)
    (hok : m.call = .ok sub) :
    (∀ i ∈ sub.indices, i < (m.dataset_func ()).items.length)
    ∧ sub.indices.Nodup := by
  obtain ⟨ts, hts, -, hsplit⟩ := call_ok_elim hok
  obtain ⟨-, -, -, hstrat⟩ := train_test_split_ok_elim hsplit
  have hlen : ts.length = (m.dataset_func ()).items.length := extractTargets_length hw hts
  constructor
  · intro i hi
    have := splitTrain_sel_lt hstrat i hi
    omega
  · exact splitTrain_sel_nodup hstrat

/-- Witness for C10: the successful call on the 20-item dataset selects
`[16, 15]`: both indices are below 20 and they are distinct. -/
theorem selected_indices_invariant_witness :
    (∀ i ∈ (⟨exampleDataset20, [16, 15]⟩ : TorchSubset ℕ ℕ).indices,
      i < exampleDataset20.items.length)
    ∧ (⟨exampleDataset20, [16, 15]⟩ : TorchSubset ℕ ℕ).indices.Nodup :=
  selected_indices_invariant (⟨fun _ => exampleDataset20, 10, 0⟩ : minimize_dataset ℕ ℕ)
    ⟨exampleDataset20, [16, 15]⟩
    ⟨fun ts h => by cases h; rfl, fun ls h => Option.noConfusion h⟩ rfl

/-- C2: subset size.  Whenever the subsampler returns a subset on a
well-formed labelled dataset, the subset's length is exactly
`floor(fraction/100 * len(D))` — in particular it is within
±(number of distinct label classes) of that value, as the claim
states.  (At fraction 100 the call never returns a subset; see the C6
theorem.) -/
theorem subset_size {α L : Type} [LinearOrder L]
    (m : minimize_dataset α L) (sub : TorchSubset α L) (ts : List L)
    (hw : (m.dataset_func ()).WellFormed)
    (hts : extractTargets (m.dataset_func ()) = .ok ts)
    (hok : m.call = .ok sub) :
    sub.len = m.dataset_size.toNat * (m.dataset_func ()).items.length / 100
    ∧ ((sub.len : ℤ)
        - (m.dataset_size.toNat * (m.dataset_func ()).items.length / 100 : ℕ)).natAbs
      ≤ (sortedClasses ts).length := by
  obtain ⟨ts', hts', -, hsplit⟩ := call_ok_elim hok
  rw [hts] at hts'
  injection hts' with hts'
  subst hts'
  obtain ⟨hf0, hf100, hne, hstrat⟩ := train_test_split_ok_elim hsplit
  have hlen : ts.length = (m.dataset_func ()).items.length := extractTargets_length hw hts
  have hn0 : 0 < (m.dataset_func ()).items.length := by
    by_contra h0
    push_neg at h0
    have hz : (m.dataset_func ()).items.length = 0 := by omega
    rw [hz] at hne
    simp at hne
  have hfle : m.dataset_size.toNat ≤ 99 := by omega
  have hlt : m.dataset_size.toNat * (m.dataset_func ()).items.length / 100
      < (m.dataset_func ()).items.length := by
    rw [Nat.div_lt_iff_lt_mul (by norm_num : (0:ℕ) < 100)]
    have h99 : m.dataset_size.toNat * (m.dataset_func ()).items.length
        ≤ 99 * (m.dataset_func ()).items.length :=
      Nat.mul_le_mul_right _ hfle
    omega
  have hsel := splitTrain_sel_length hstrat (by omega) (by omega)
  refine ⟨hsel, ?_⟩
  show ((sub.indices.length : ℤ)
      - (m.dataset_size.toNat * (m.dataset_func ()).items.length / 100 : ℕ)).natAbs
    ≤ (sortedClasses ts).length
  rw [hsel]
  simp

/-- Witness for C2: the 20-item dataset with fraction 10, seed 0 yields
the subset `[16, 15]` of length 2 = floor(10/100 * 20), within ±2 (the
number of classes) of that value. -/
theorem subset_size_witness :
    (⟨exampleDataset20, [16, 15]⟩ : TorchSubset ℕ ℕ).len
        = (10 : ℤ).toNat * exampleDataset20.items.length / 100
    ∧ (((⟨exampleDataset20, [16, 15]⟩ : TorchSubset ℕ ℕ).len : ℤ)
        - ((10 : ℤ).toNat * exampleDataset20.items.length / 100 : ℕ)).natAbs
      ≤ (sortedClasses (List.replicate 18 0 ++ List.replicate 2 (1:ℕ))).length :=
  subset_size ⟨fun _ => exampleDataset20, 10, 0⟩ ⟨exampleDataset20, [16, 15]⟩
    (List.replicate 18 0 ++ List.replicate 2 1)
    ⟨fun ts h => by cases h; rfl, fun ls h => Option.noConfusion h⟩ rfl rfl

/-- C3: stratification.  Whenever the subsampler returns a subset on a
well-formed labelled dataset, for every label class `c` present in the
dataset the number of selected indices carrying label `c` is within 1 of
the class's exact proportional share
`count(c) * len(subset) / len(D)` — equivalently, the per-class
proportion in the subset approximates the per-class proportion in the
full dataset within a rounding tolerance of 1 per class.  Selected
counts are naturals, hence never negative; the witness below exhibits a
small non-empty class whose selected count is legitimately 0. -/
theorem subsample_stratified {α L : Type} [LinearOrder L]
    (m : minimize_dataset α L) (sub : TorchSubset α L) (ts : List L) (c : L)
    (hw : (m.dataset_func ()).WellFormed)
    (hts : extractTargets (m.dataset_func ()) = .ok ts)
    (hok : m.call = .ok sub) (hc : c ∈ ts) :
    0 ≤ sub.indices.countP (fun i => ts[i]? = some c)
    ∧ |(sub.indices.countP (fun i => ts[i]? = some c) : ℚ)
        - (ts.count c : ℚ) * sub.len / ts.length| ≤ 1 := by
  obtain ⟨ts', hts', -, hsplit⟩ := call_ok_elim hok
  rw [hts] at hts'
  injection hts' with hts'
  subst hts'
  obtain ⟨hf0, hf100, hne, hstrat⟩ := train_test_split_ok_elim hsplit
  have hlen : ts.length = (m.dataset_func ()).items.length := extractTargets_length hw hts
  have hn0 : 0 < (m.dataset_func ()).items.length := by
    by_contra h0
    push_neg at h0
    have hz : (m.dataset_func ()).items.length = 0 := by omega
    rw [hz] at hne
    simp at hne
  have hfle : m.dataset_size.toNat ≤ 99 := by omega
  have hlt : m.dataset_size.toNat * (m.dataset_func ()).items.length / 100
      < (m.dataset_func ()).items.length := by
    rw [Nat.div_lt_iff_lt_mul (by norm_num : (0:ℕ) < 100)]
    have h99 : m.dataset_size.toNat * (m.dataset_func ()).items.length
        ≤ 99 * (m.dataset_func ()).items.length :=
      Nat.mul_le_mul_right _ hfle
    omega
  have hsel := splitTrain_sel_length hstrat (by omega) (by omega)
  obtain ⟨o, hcount, hole, hlow, hhigh⟩ :=
    splitTrain_sel_count hstrat (by omega) (by omega) hc
  refine ⟨Nat.zero_le _, ?_⟩
  rw [hcount]
  have hlenq : (0 : ℚ) < ts.length := by
    have : 0 < ts.length := by omega
    exact_mod_cast this
  have hsubl : (sub.len : ℚ)
      = (m.dataset_size.toNat * (m.dataset_func ()).items.length / 100 : ℕ) := by
    show ((sub.indices.length : ℕ) : ℚ) = _
    rw [hsel]
  rw [hsubl]
  have hb : (ts.count c : ℚ)
        * (m.dataset_size.toNat * (m.dataset_func ()).items.length / 100 : ℕ)
        / ts.length * ts.length
      = (ts.count c : ℚ)
        * (m.dataset_size.toNat * (m.dataset_func ()).items.length / 100 : ℕ) :=
    div_mul_cancel₀ _ hlenq.ne'
  have hlowq : ((ts.count c : ℚ))
      * (m.dataset_size.toNat * (m.dataset_func ()).items.length / 100 : ℕ)
      ≤ ((o : ℚ) + 1) * ts.length := by
    exact_mod_cast hlow
  have hhighq : (o : ℚ) * ts.length
      ≤ (ts.count c : ℚ)
        * (m.dataset_size.toNat * (m.dataset_func ()).items.length / 100 : ℕ)
        + ts.length := by
    exact_mod_cast hhigh
  rw [abs_sub_le_iff]
  constructor
  · rw [sub_le_iff_le_add]
    rw [← mul_le_mul_right hlenq]
    rw [add_mul, one_mul, hb]
    linarith
  · rw [sub_le_iff_le_add]
    rw [← mul_le_mul_right hlenq]
    rw [add_mul, one_mul, hb]
    linarith

/-- Witness for C3: on the 20-item dataset (18 items of class 0, 2 of
class 1) with fraction 10 and seed 0 the call selects `[16, 15]`; the
small class 1 receives 0 selected members (a legitimate outcome of
proportional rounding, never negative), and 0 is within 1 of its exact
share 2*2/20 = 0.2. -/
theorem subsample_stratified_witness :
    0 ≤ (([16, 15] : List ℕ).countP
        (fun i => (List.replicate 18 0 ++ List.replicate 2 (1:ℕ))[i]? = some 1))
    ∧ |((([16, 15] : List ℕ).countP
          (fun i => (List.replicate 18 0 ++ List.replicate 2 (1:ℕ))[i]? = some 1)) : ℚ)
        - ((List.replicate 18 0 ++ List.replicate 2 (1:ℕ)).count 1 : ℚ)
          * (⟨exampleDataset20, [16, 15]⟩ : TorchSubset ℕ ℕ).len
          / (List.replicate 18 0 ++ List.replicate 2 (1:ℕ)).length| ≤ 1 :=
  subsample_stratified ⟨fun _ => exampleDataset20, 10, 0⟩ ⟨exampleDataset20, [16, 15]⟩
    (List.replicate 18 0 ++ List.replicate 2 1) 1
    ⟨fun ts h => by cases h; rfl, fun ls h => Option.noConfusion h⟩ rfl rfl (by decide)

set_option maxRecDepth 8192 in
/-- C8: concrete example.  On the 100-item dataset with two balanced
classes of 50 (labels 0 and 1), fraction 10 and seed 42, the subsampler
returns a subset of size 10 with exactly 5 indices from each class;
repeated construction with seed 42 yields the identical index sequence.
The inequality with seed 43 exhibits, within the embedded deterministic
generator, that a different seed may yield a different sequence (the
claim only asserts the possibility). -/
theorem example_subsample_concrete :
    (minimize_dataset.call (⟨fun _ => exampleDataset100, 10, 42⟩ : minimize_dataset ℕ ℕ)).map
        (fun sub => (sub.len,
          sub.indices.countP
            (fun i => (List.replicate 50 0 ++ List.replicate 50 (1:ℕ))[i]? = some 0),
          sub.indices.countP
            (fun i => (List.replicate 50 0 ++ List.replicate 50 (1:ℕ))[i]? = some 1)))
      = .ok (10, 5, 5)
    ∧ minimize_dataset.call (⟨fun _ => exampleDataset100, 10, 42⟩ : minimize_dataset ℕ ℕ)
      = minimize_dataset.call (⟨fun _ => exampleDataset100, 10, 42⟩ : minimize_dataset ℕ ℕ)
    ∧ (minimize_dataset.call (⟨fun _ => exampleDataset100, 10, 43⟩ : minimize_dataset ℕ ℕ)).map
        TorchSubset.indices
      ≠ (minimize_dataset.call (⟨fun _ => exampleDataset100, 10, 42⟩ : minimize_dataset ℕ ℕ)).map
        TorchSubset.indices := by
  refine ⟨?_, rfl, ?_⟩
  · rfl
  · intro h
    have h1 : (minimize_dataset.call
          (⟨fun _ => exampleDataset100, 10, 43⟩ : minimize_dataset ℕ ℕ)).map
        TorchSubset.indices = .ok [26, 27, 28, 81, 82, 83, 84, 85, 24, 25] := rfl
    have h2 : (minimize_dataset.call
          (⟨fun _ => exampleDataset100, 10, 42⟩ : minimize_dataset ℕ ℕ)).map
        TorchSubset.indices = .ok [26, 27, 28, 29, 62, 63, 64, 65, 66, 25] := rfl
    rw [h1, h2] at h
    injection h with h
    exact absurd h (by decide)
